import Mathlib

/-!
Verification of the Crockford Base32 codec (`src/lib/index.cjs`).

Shallow embedding conventions:
* JS strings are `List Char`; `Uint8Array` contents are `List Nat` whose
  elements are below 256.
* JS `Number` values that the code keeps integral are modelled by `Nat`/`Int`
  (all intermediate values handled by the integer codec stay at or below the
  safe-integer bound `2^53 - 1`, where IEEE-754 double arithmetic on integers
  is exact, so exact integer arithmetic is the faithful model).
* JS objects used as dictionaries (`lookup`, `baseMapLookup`) are association
  lists where the most recent assignment is consed to the front, so a
  front-to-back search (`List.find?`) realises JS's last-write-wins semantics.
* Thrown exceptions are modelled with `Except JsError`.
* Stores into a pre-allocated `Uint8Array` happen at consecutive indices
  starting from 0; `writeSeq` models this including the masking to 8 bits and
  the silent dropping of out-of-bounds stores.
* Bit operations mirror the source: `&&& 0x1f`, `&&& 0xff`, `|||`, `<<<`,
  `>>>`.  The `shift` counter of the string/byte decoder genuinely goes
  negative in JS, so it is modelled by `Int` there; the encoder's `shift`
  stays in `[3, 8]` in every reachable state, so `Nat` subtraction agrees
  with JS there.
-/

/-- Error values thrown by the source (`TypeError`, `RangeError`,
`SyntaxError` for an invalid character/byte, and the `SyntaxError` thrown by
`toAlphabet` for a character already in the alphabet). -/
inductive JsError where
  | typeError : JsError
  | rangeError : JsError
  | charSyntaxError (c : Char) (i : Nat) : JsError
  | byteSyntaxError (b : Nat) (i : Nat) : JsError
  | duplicateCharError (c : Char) (i : Nat) : JsError
deriving DecidableEq, Repr

/-- `ALPHABET` constant (line 47 of the source). -/
def ALPHABET : List Char := "0123456789ABCDEFGHJKMNPQRSTVWXYZ".toList

/-- JS dictionary search on a `Char`-keyed association list (newest binding
first, as built by `createAlphabetLookups`). -/
def alookup (m : List (Char × Nat)) (c : Char) : Option Nat :=
  (m.find? (fun p => p.1 == c)).map (fun p => p.2)

/-- JS dictionary search on a char-code-keyed association list. -/
def nlookup (m : List (Nat × Nat)) (k : Nat) : Option Nat :=
  (m.find? (fun p => p.1 == k)).map (fun p => p.2)

/-- The three derived tables built by `createAlphabetLookups`
(source lines 53-89). -/
structure Lookups where
  lookup : List (Char × Nat)
  baseMap : List Nat
  baseMapLookup : List (Nat × Nat)
deriving Repr

/-- `createAlphabetLookups` (source lines 53-89).  For `i` in `0..31` it
records the canonical entries and then the alias entries: `'0'` also maps
`'O'`/`'o'` (codes 0x4f/0x6f), `'1'` also maps `'I'`/`'i'`/`'L'`/`'l'`
(codes 0x49/0x69/0x4c/0x6c), and any other character whose code exceeds 64
also maps its code+32 (lowercase) counterpart.  Later assignments shadow
earlier ones, which the front-consed association list reproduces.
`createAlphabetLookupsStep` is the body of the `for` loop for index `i`. -/
def createAlphabetLookupsStep (alphabet : List Char) (L : Lookups) (i : Nat) : Lookups :=
  let char := alphabet.getD i ' '
  let charCode := char.toNat
  let lookup := (char, i) :: L.lookup
  let baseMap := L.baseMap ++ [charCode]
  let baseMapLookup := (charCode, i) :: L.baseMapLookup
  if char = '0' then
    { lookup := ('o', i) :: ('O', i) :: lookup
      baseMap := baseMap
      baseMapLookup := (0x6f, i) :: (0x4f, i) :: baseMapLookup }
  else if char = '1' then
    { lookup := ('l', i) :: ('L', i) :: ('i', i) :: ('I', i) :: lookup
      baseMap := baseMap
      baseMapLookup := (0x6c, i) :: (0x4c, i) :: (0x69, i) :: (0x49, i) :: baseMapLookup }
  else if 64 < charCode then
    let lowerCharCode := charCode + 32
    { lookup := (Char.ofNat lowerCharCode, i) :: lookup
      baseMap := baseMap
      baseMapLookup := (lowerCharCode, i) :: baseMapLookup }
  else
    { lookup := lookup, baseMap := baseMap, baseMapLookup := baseMapLookup }

def createAlphabetLookups (alphabet : List Char) : Lookups :=
  (List.range 32).foldl (createAlphabetLookupsStep alphabet) ⟨[], [], []⟩

/-- The module-level default instance lookup used by `toAlphabet` and
`isAlphabet` (source line 95/117: `base32Crockford[alphabetLookupSymbol]`). -/
def defaultAlphabetLookup : List (Char × Nat) := (createAlphabetLookups ALPHABET).lookup

/-- The character scan of `toAlphabet` (source lines 119-128): each character
must be present in the default instance's lookup, and must not have occurred
earlier in the candidate (`uniqueCharsLookup` tracks literal characters). -/
def checkAlphabetChars : List Char → Nat → List Char → Option JsError
  | [], _, _ => none
  | c :: rest, i, seen =>
    if alookup defaultAlphabetLookup c = none then some (.charSyntaxError c i)
    else if seen.contains c then some (.duplicateCharError c i)
    else checkAlphabetChars rest (i + 1) (c :: seen)

/-- `toAlphabet` (source lines 107-130).  `none` stands for the omitted
argument.  (The `TypeError` branch for non-string arguments is outside the
typed model.) -/
def toAlphabet : Option (List Char) → Except JsError (List Char)
  | none => .ok ALPHABET
  | some value =>
    if value.length ≠ 32 then .error .rangeError
    else
      match checkAlphabetChars value 0 [] with
      | some e => .error e
      | none => .ok value

/-- `isAlphabet` (source lines 91-105): same checks as `toAlphabet`, as a
boolean probe. -/
def isAlphabet (value : List Char) : Bool :=
  value.length == 32 && (checkAlphabetChars value 0 []).isNone

/-- A constructed `Base32Crockford` instance: the validated alphabet plus the
three derived tables (source lines 146-153). -/
structure Base32Crockford where
  alphabet : List Char
  lookup : List (Char × Nat)
  baseMap : List Nat
  baseMapLookup : List (Nat × Nat)

/-- The constructor `new Base32Crockford(alphabet)` (source lines 146-153). -/
def mkBase32Crockford (alphabet? : Option (List Char)) : Except JsError Base32Crockford :=
  (toAlphabet alphabet?).map fun a =>
    let L := createAlphabetLookups a
    ⟨a, L.lookup, L.baseMap, L.baseMapLookup⟩

/-- The module-level default instance `base32Crockford` (source line 425),
which backs the exported free functions. -/
def base32Crockford : Base32Crockford :=
  let L := createAlphabetLookups ALPHABET
  ⟨ALPHABET, L.lookup, L.baseMap, L.baseMapLookup⟩

/-- `NumberMAX_SAFE_INTEGER` = `2^53 - 1`. -/
def MAX_SAFE_INTEGER : Int := 2 ^ 53 - 1

/-- The digit loop of `encodeInt`/`encodeBigInt` (source lines 175-178 and
210-213; both loops run the identical repeated-division algorithm on the
absolute value): prepend `alphabet[number % 32]`, divide by 32, until 0. -/
def encodeIntDigits (alphabet : List Char) (number : Nat) (result : List Char) : List Char :=
  if h : number = 0 then result
  else encodeIntDigits alphabet (number / 32) (alphabet.getD (number % 32) ' ' :: result)
termination_by number
decreasing_by exact Nat.div_lt_self (Nat.pos_of_ne_zero h) (by norm_num)

/-- `Base32Crockford.encodeInt` (source lines 159-180). -/
def encodeInt (codec : Base32Crockford) (value : Int) : Except JsError (List Char) :=
  if value < -MAX_SAFE_INTEGER then .error .rangeError
  else if MAX_SAFE_INTEGER < value then .error .rangeError
  else if value = 0 then .ok [codec.alphabet.getD 0 ' ']
  else
    let digits := encodeIntDigits codec.alphabet value.natAbs []
    .ok (if value < 0 then '-' :: digits else digits)

/-- The accumulation loop of `decodeInt` (source lines 188-195):
`result = result * 32 + index`, throwing on a character missing from the
lookup.  The accumulator is a `Nat` since it starts at 0 and only grows. -/
def decodeIntLoop (lookup : List (Char × Nat)) : List Char → Nat → Nat → Except JsError Nat
  | [], _, result => .ok result
  | c :: rest, i, result =>
    match alookup lookup c with
    | none => .error (.charSyntaxError c i)
    | some index => decodeIntLoop lookup rest (i + 1) (result * 32 + index)

/-- `Base32Crockford.decodeInt` (source lines 182-197). -/
def decodeInt (codec : Base32Crockford) (string : List Char) : Except JsError Int :=
  let isNegative : Bool := string.headD ' ' == '-'
  let startIdx := if isNegative && decide (1 < string.length) then 1 else 0
  match decodeIntLoop codec.lookup (string.drop startIdx) startIdx 0 with
  | .error e => .error e
  | .ok result => .ok (if isNegative && decide (0 < result) then -(result : Int) else (result : Int))

/-- `Base32Crockford.encodeBigInt` (source lines 199-215): as `encodeInt` but
with no range check and arbitrary-precision arithmetic. -/
def encodeBigInt (codec : Base32Crockford) (value : Int) : List Char :=
  if value = 0 then [codec.alphabet.getD 0 ' ']
  else
    let digits := encodeIntDigits codec.alphabet value.natAbs []
    if value < 0 then '-' :: digits else digits

/-- The accumulation loop of `decodeBigInt` (source lines 223-230), on
arbitrary-precision integers. -/
def decodeBigIntLoop (lookup : List (Char × Nat)) : List Char → Nat → Int → Except JsError Int
  | [], _, result => .ok result
  | c :: rest, i, result =>
    match alookup lookup c with
    | none => .error (.charSyntaxError c i)
    | some index => decodeBigIntLoop lookup rest (i + 1) (result * 32 + (index : Int))

/-- `Base32Crockford.decodeBigInt` (source lines 217-232).  Unlike
`decodeInt` it negates without the `result > 0` guard. -/
def decodeBigInt (codec : Base32Crockford) (string : List Char) : Except JsError Int :=
  let isNegative : Bool := string.headD ' ' == '-'
  let startIdx := if isNegative && decide (1 < string.length) then 1 else 0
  match decodeBigIntLoop codec.lookup (string.drop startIdx) startIdx 0 with
  | .error e => .error e
  | .ok result => .ok (if isNegative then -result else result)

/-- JS slice-index adjustment shared by all byte/string range operations
(source lines 239-246 etc.): a negative index counts from the end and is
clamped below by 0; a non-negative one is clamped above by the length. -/
def sliceIndexJs (length : Nat) (v : Option Int) (dflt : Nat) : Nat :=
  match v with
  | none => dflt
  | some x => if x < 0 then (max 0 ((length : Int) + x)).toNat else (min x (length : Int)).toNat

/-- Sequential stores into a zero-initialised `Uint8Array` of size `len`,
starting at index 0: each stored value is masked to 8 bits, and stores past
the end are silently ignored (JS typed-array semantics). -/
def writeSeq (len : Nat) (writes : List Nat) : List Nat :=
  (writes.map (fun v => v % 256)).take len ++ List.replicate (len - writes.length) 0

/-- The shared bit-packing loop of `[encodeToStringSymbol]` (source lines
248-266) and `encode` (source lines 339-358).  The two methods differ only in
the emission table (`alphabet[...]` producing characters versus
`baseMap[...]` producing char codes), abstracted as `emit`, which receives
the already-masked 5-bit value `number & 0x1f`.  The final `if (shift !== 3)`
flush is the `[]` case. -/
def encLoop (emit : Nat → α) : List Nat → Nat → Nat → List α
  | [], shift, carry => if shift ≠ 3 then [emit (carry &&& 0x1f)] else []
  | byte :: rest, shift, carry =>
    let number := carry ||| (byte >>> shift)
    let first := emit (number &&& 0x1f)
    if 5 < shift then
      let shift2 := shift - 5
      let number2 := byte >>> shift2
      let s := 5 - shift2
      first :: emit (number2 &&& 0x1f) :: encLoop emit rest (8 - s) (byte <<< s)
    else
      let s := 5 - shift
      first :: encLoop emit rest (8 - s) (byte <<< s)

/-- The shared bit-unpacking loop of `[decodeFromStringSymbol]` (source lines
284-306) and `decode` (source lines 379-401), abstracted over the symbol
resolution (`alphabetLookup` keyed by characters versus `baseMapLookup` keyed
by char codes) and the error constructor.  It returns the bytes stored during
the loop together with the final `shift` and `carry`; `i` is the absolute
input index used in error messages.  `shift` is an `Int` because JS lets it
go negative. -/
def decLoop (resolve : α → Option Nat) (mkErr : α → Nat → JsError) :
    List α → Nat → Int → Nat → Except JsError (List Nat × Int × Nat)
  | [], _, shift, carry => .ok ([], shift, carry)
  | c :: rest, i, shift, carry =>
    match resolve c with
    | none => .error (mkErr c i)
    | some charIndex =>
      let number := charIndex &&& 0xff
      let shift1 := shift - 5
      if 0 < shift1 then
        decLoop resolve mkErr rest (i + 1) shift1 (carry ||| (number <<< shift1.toNat))
      else if shift1 < 0 then
        match decLoop resolve mkErr rest (i + 1) (shift1 + 8) ((number <<< (shift1 + 8).toNat) &&& 0xff) with
        | .error e => .error e
        | .ok (out, s, c2) => .ok ((carry ||| (number >>> (-shift1).toNat)) :: out, s, c2)
      else
        match decLoop resolve mkErr rest (i + 1) 8 0 with
        | .error e => .error e
        | .ok (out, s, c2) => .ok ((carry ||| number) :: out, s, c2)

/-- `Base32Crockford[encodeToStringSymbol]` / `encodeToString`
(source lines 234-267, 408-413): bit-pack the sliced byte range, emitting
alphabet characters. -/
def encodeToString (codec : Base32Crockford) (input : List Nat) (start? end? : Option Int) : List Char :=
  let length := input.length
  let startIndex := sliceIndexJs length start? 0
  let endIndex := sliceIndexJs length end? length
  encLoop (fun v => codec.alphabet.getD v ' ') ((input.drop startIndex).take (endIndex - startIndex)) 3 0

/-- `Base32Crockford.encode` (source lines 321-359): as `encodeToString` but
emitting canonical char codes through `baseMap` into a fresh `Uint8Array` of
size `(newLength * 8 + 4) / 5`. -/
def encode (codec : Base32Crockford) (input : List Nat) (start? end? : Option Int) : List Nat :=
  let length := input.length
  let startIndex := sliceIndexJs length start? 0
  let endIndex := sliceIndexJs length end? length
  let newLength := endIndex - startIndex
  writeSeq ((newLength * 8 + 4) / 5)
    (encLoop (fun v => codec.baseMap.getD v 0) ((input.drop startIndex).take newLength) 3 0)

/-- `Base32Crockford[decodeFromStringSymbol]` / `decodeFromString`
(source lines 269-311, 415-420): bit-unpack the sliced character range into a
fresh `Uint8Array` of size `newLength * 5 / 8`; after the loop, if
`shift ≠ 8` and `carry ≠ 0`, one more store of `carry` is attempted at the
next index (which `writeSeq` drops when it falls outside the array). -/
def decodeFromString (codec : Base32Crockford) (string : List Char) (start? end? : Option Int) :
    Except JsError (List Nat) :=
  let length := string.length
  let startIndex := sliceIndexJs length start? 0
  let endIndex := sliceIndexJs length end? length
  let newLength := endIndex - startIndex
  match decLoop (alookup codec.lookup) (fun c i => JsError.charSyntaxError c i)
      ((string.drop startIndex).take newLength) startIndex 8 0 with
  | .error e => .error e
  | .ok (out, shift, carry) =>
    .ok (writeSeq (newLength * 5 / 8) (out ++ if shift ≠ 8 ∧ carry ≠ 0 then [carry] else []))

/-- `Base32Crockford.decode` (source lines 361-406): as `decodeFromString`
but reading char codes from a byte buffer through `baseMapLookup`. -/
def decode (codec : Base32Crockford) (input : List Nat) (start? end? : Option Int) :
    Except JsError (List Nat) :=
  let length := input.length
  let startIndex := sliceIndexJs length start? 0
  let endIndex := sliceIndexJs length end? length
  let newLength := endIndex - startIndex
  match decLoop (nlookup codec.baseMapLookup) (fun b i => JsError.byteSyntaxError b i)
      ((input.drop startIndex).take newLength) startIndex 8 0 with
  | .error e => .error e
  | .ok (out, shift, carry) =>
    .ok (writeSeq (newLength * 5 / 8) (out ++ if shift ≠ 8 ∧ carry ≠ 0 then [carry] else []))

/-! ### Bit-arithmetic toolkit -/

theorem and_31_eq_mod (x : Nat) : x &&& 31 = x % 32 := by
  have h := Nat.and_pow_two_sub_one_eq_mod x 5
  norm_num at h
  exact h

theorem and_255_eq_mod (x : Nat) : x &&& 255 = x % 256 := by
  have h := Nat.and_pow_two_sub_one_eq_mod x 8
  norm_num at h
  exact h

theorem lor_disjoint_eq_add (a b k : Nat) (h : b < 2 ^ k) :
    a * 2 ^ k ||| b = a * 2 ^ k + b := by
  rw [Nat.mul_comm a (2 ^ k)]
  exact (Nat.mul_add_lt_is_or h a).symm


/-! ### Structural lemmas about the encoder loop -/

theorem encLoop_map {α : Type} (emit : Nat → α) (bs : List Nat) (s c : Nat) :
    encLoop emit bs s c = (encLoop (fun v => v) bs s c).map emit := by
  induction bs generalizing s c with
  | nil =>
    by_cases h : s ≠ 3 <;> simp [encLoop, h]
  | cons b rest ih =>
    by_cases h5 : 5 < s <;> simp [encLoop, h5, ih]

theorem encLoop_lt32 (bs : List Nat) (s c : Nat) :
    ∀ v ∈ encLoop (fun v => v) bs s c, v < 32 := by
  induction bs generalizing s c with
  | nil =>
    intro v hv
    by_cases h : s ≠ 3
    · simp [encLoop, h] at hv
      subst hv
      have := and_31_eq_mod c
      omega
    · simp [encLoop, h] at hv
  | cons b rest ih =>
    intro v hv
    by_cases h5 : 5 < s
    · simp only [encLoop, if_pos h5, List.mem_cons] at hv
      rcases hv with h1 | h1 | h1
      · subst h1
        have := and_31_eq_mod (c ||| b >>> s)
        omega
      · subst h1
        have := and_31_eq_mod (b >>> (s - 5))
        omega
      · exact ih _ _ v h1
    · simp only [encLoop, if_neg h5, List.mem_cons] at hv
      rcases hv with h1 | h1
      · subst h1
        have := and_31_eq_mod (c ||| b >>> s)
        omega
      · exact ih _ _ v h1

theorem encLoop_length {α : Type} (emit : Nat → α) (bs : List Nat) :
    ∀ s c, 3 ≤ s → s ≤ 8 →
      (encLoop emit bs s c).length = (8 * bs.length + (s - 3) + 4) / 5 := by
  induction bs with
  | nil =>
    intro s c h3 h8
    by_cases h : s ≠ 3 <;> simp [encLoop, h] <;> omega
  | cons b rest ih =>
    intro s c h3 h8
    by_cases h5 : 5 < s
    · have h1 := ih (8 - (5 - (s - 5))) (b <<< (5 - (s - 5))) (by omega) (by omega)
      simp only [encLoop, if_pos h5, List.length_cons, h1]
      omega
    · have h1 := ih (8 - (5 - s)) (b <<< (5 - s)) (by omega) (by omega)
      simp only [encLoop, if_neg h5, List.length_cons, h1]
      omega

/-! ### Structural lemmas about the decoder loop -/

theorem decLoop_map {α : Type} (resolve : α → Option Nat) (mkErr : α → Nat → JsError)
    (f : Nat → α) (xs : List Nat) :
    ∀ i (s : Int) c, (∀ x ∈ xs, resolve (f x) = some x) →
      decLoop resolve mkErr (xs.map f) i s c
        = decLoop (fun v => some v) (fun _ _ => JsError.typeError) xs i s c := by
  induction xs with
  | nil => intro i s c _; rfl
  | cons x rest ih =>
    intro i s c h
    have hx : resolve (f x) = some x := h x (by simp)
    have hr : ∀ y ∈ rest, resolve (f y) = some y := fun y hy => h y (by simp [hy])
    simp only [List.map_cons, decLoop, hx]
    by_cases h1 : (0 : Int) < s - 5
    · simp only [if_pos h1, ih _ _ _ hr]
    · by_cases h2 : s - 5 < 0
      · simp only [if_neg h1, if_pos h2, ih _ _ _ hr]
      · simp only [if_neg h1, if_neg h2, ih _ _ _ hr]

theorem decLoop_length_ok {α : Type} (resolve : α → Option Nat) (mkErr : α → Nat → JsError)
    (xs : List α) :
    ∀ i (s : Int) c out fs fc, 1 ≤ s → s ≤ 8 →
      decLoop resolve mkErr xs i s c = .ok (out, fs, fc) →
      out.length = ((8 - s).toNat + 5 * xs.length) / 8 ∧ 1 ≤ fs ∧ fs ≤ 8 := by
  induction xs with
  | nil =>
    intro i s c out fs fc h1 h8 h
    simp only [decLoop, Except.ok.injEq, Prod.mk.injEq] at h
    obtain ⟨ho, hfs, -⟩ := h
    subst ho hfs
    constructor
    · simp; omega
    · omega
  | cons x rest ih =>
    intro i s c out fs fc h1 h8 h
    simp only [decLoop] at h
    rcases hres : resolve x with - | v
    · simp [hres] at h
    simp only [hres] at h
    by_cases hc1 : (0 : Int) < s - 5
    · rw [if_pos hc1] at h
      have := ih _ _ _ _ _ _ (by omega) (by omega) h
      simp only [List.length_cons]
      constructor
      · have : out.length = ((8 - (s - 5)).toNat + 5 * rest.length) / 8 := this.1
        omega
      · exact this.2
    · by_cases hc2 : s - 5 < 0
      · rw [if_neg hc1, if_pos hc2] at h
        rcases hrec : decLoop resolve mkErr rest (i + 1) (s - 5 + 8)
            (((v &&& 255) <<< (s - 5 + 8).toNat) &&& 255) with e | ⟨out', fs', fc'⟩
        · rw [hrec] at h; exact absurd h (by simp)
        · rw [hrec] at h
          simp only [Except.ok.injEq, Prod.mk.injEq] at h
          obtain ⟨ho, hfs, hfc⟩ := h
          subst hfs hfc
          have hih := ih _ _ _ _ _ _ (by omega) (by omega) hrec
          constructor
          · rw [← ho]
            simp only [List.length_cons]
            have : out'.length = ((8 - (s - 5 + 8)).toNat + 5 * rest.length) / 8 := hih.1
            omega
          · exact hih.2
      · rw [if_neg hc1, if_neg hc2] at h
        rcases hrec : decLoop resolve mkErr rest (i + 1) 8 0 with e | ⟨out', fs', fc'⟩
        · rw [hrec] at h; exact absurd h (by simp)
        · rw [hrec] at h
          simp only [Except.ok.injEq, Prod.mk.injEq] at h
          obtain ⟨ho, hfs, hfc⟩ := h
          subst hfs hfc
          have hih := ih _ _ _ _ _ _ (by omega) (by omega) hrec
          constructor
          · rw [← ho]
            simp only [List.length_cons]
            have : out'.length = ((8 - (8 : Int)).toNat + 5 * rest.length) / 8 := hih.1
            omega
          · exact hih.2

theorem decLoop_first_invalid {α : Type} (resolve : α → Option Nat) (mkErr : α → Nat → JsError)
    (dflt : α) (xs : List α) :
    ∀ i (s : Int) c, (∃ x ∈ xs, resolve x = none) →
      ∃ k, k < xs.length ∧ resolve (xs.getD k dflt) = none ∧
        (∀ j, j < k → resolve (xs.getD j dflt) ≠ none) ∧
        decLoop resolve mkErr xs i s c = .error (mkErr (xs.getD k dflt) (i + k)) := by
  induction xs with
  | nil => intro i s c h; simp at h
  | cons x rest ih =>
    intro i s c h
    rcases hres : resolve x with - | v
    · refine ⟨0, by simp, by simpa using hres, by omega, ?_⟩
      simp [decLoop, hres]
    · have hrest : ∃ y ∈ rest, resolve y = none := by
        rcases h with ⟨y, hy, hyn⟩
        rcases List.mem_cons.mp hy with rfl | hy'
        · rw [hres] at hyn; cases hyn
        · exact ⟨y, hy', hyn⟩
      simp only [decLoop, hres]
      by_cases hc1 : (0 : Int) < s - 5
      · rw [if_pos hc1]
        obtain ⟨k, hk, hkn, hkfirst, heq⟩ := ih (i + 1) (s - 5) (c ||| ((v &&& 255) <<< (s - 5).toNat)) hrest
        refine ⟨k + 1, by simpa using Nat.succ_lt_succ hk, by simpa using hkn, ?_, ?_⟩
        · intro j hj
          cases j with
          | zero => simp [hres]
          | succ j' => simpa using hkfirst j' (by omega)
        · rw [heq]
          have : i + 1 + k = i + (k + 1) := by omega
          simp [this]
      · by_cases hc2 : s - 5 < 0
        · rw [if_neg hc1, if_pos hc2]
          obtain ⟨k, hk, hkn, hkfirst, heq⟩ := ih (i + 1) (s - 5 + 8)
            (((v &&& 255) <<< (s - 5 + 8).toNat) &&& 255) hrest
          refine ⟨k + 1, by simpa using Nat.succ_lt_succ hk, by simpa using hkn, ?_, ?_⟩
          · intro j hj
            cases j with
            | zero => simp [hres]
            | succ j' => simpa using hkfirst j' (by omega)
          · rw [heq]
            have : i + 1 + k = i + (k + 1) := by omega
            simp [this]
        · rw [if_neg hc1, if_neg hc2]
          obtain ⟨k, hk, hkn, hkfirst, heq⟩ := ih (i + 1) 8 0 hrest
          refine ⟨k + 1, by simpa using Nat.succ_lt_succ hk, by simpa using hkn, ?_, ?_⟩
          · intro j hj
            cases j with
            | zero => simp [hres]
            | succ j' => simpa using hkfirst j' (by omega)
          · rw [heq]
            have : i + 1 + k = i + (k + 1) := by omega
            simp [this]

/-! ### A `Nat`-state clone of the decoder loop

`decLoop`'s `shift` stays in `[1, 8]` at every loop entry (it starts at 8,
and each branch re-establishes the bound), so it can be mirrored by a clone
whose `shift` is a `Nat`; all byte-level reasoning is done on the clone. -/

/-- `decLoop` specialised to value symbols (resolution never fails) with the
`Int` shift counter replaced by its `Nat` value. -/
def decLoopN : List Nat → Nat → Nat → List Nat × Nat × Nat
  | [], shiftN, carry => ([], shiftN, carry)
  | v :: rest, shiftN, carry =>
    let number := v &&& 255
    if 5 < shiftN then
      decLoopN rest (shiftN - 5) (carry ||| number <<< (shiftN - 5))
    else if shiftN < 5 then
      let r := decLoopN rest (shiftN + 3) ((number <<< (shiftN + 3)) &&& 255)
      ((carry ||| number >>> (5 - shiftN)) :: r.1, r.2)
    else
      let r := decLoopN rest 8 0
      ((carry ||| number) :: r.1, r.2)

theorem decLoop_eq_decLoopN :
    ∀ (xs : List Nat) (i : Nat) (sI : Int) (sN c : Nat), sI = (sN : Int) → 1 ≤ sN → sN ≤ 8 →
      decLoop (fun v => some v) (fun _ _ => JsError.typeError) xs i sI c =
        .ok ((decLoopN xs sN c).1, ((decLoopN xs sN c).2.1 : Int), (decLoopN xs sN c).2.2) := by
  intro xs
  induction xs with
  | nil =>
    intro i sI sN c hsi h1 h8
    subst hsi
    simp [decLoop, decLoopN]
  | cons v rest ih =>
    intro i sI sN c hsi h1 h8
    subst hsi
    simp only [decLoop, decLoopN]
    by_cases hgt : 5 < sN
    · rw [if_pos (by omega : (0 : Int) < (sN : Int) - 5), if_pos hgt,
        (by omega : ((sN : Int) - 5).toNat = sN - 5),
        (by omega : (sN : Int) - 5 = ((sN - 5 : Nat) : Int))]
      exact ih (i + 1) _ (sN - 5) _ rfl (by omega) (by omega)
    · by_cases hlt : sN < 5
      · rw [if_neg (by omega : ¬ (0 : Int) < (sN : Int) - 5),
          if_pos (by omega : (sN : Int) - 5 < 0), if_neg hgt, if_pos hlt,
          (by omega : ((sN : Int) - 5 + 8).toNat = sN + 3),
          (by omega : (-((sN : Int) - 5)).toNat = 5 - sN),
          (by omega : (sN : Int) - 5 + 8 = ((sN + 3 : Nat) : Int)),
          ih (i + 1) _ (sN + 3) _ rfl (by omega) (by omega)]
      · have h5 : sN = 5 := by omega
        subst h5
        rw [if_neg (by norm_num : ¬ (0 : Int) < ((5 : Nat) : Int) - 5),
          if_neg (by norm_num : ¬ ((5 : Nat) : Int) - 5 < 0), if_neg hgt, if_neg hlt,
          ih (i + 1) 8 8 0 (by norm_num) (by omega) (by omega)]

/-! ### Core round-trip invariant

Encoder state at loop entry: `shift = 3 + p` where `p ≤ 5` counts the
pending low bits of the previous byte, held (shifted to the top of the 5-bit
window) in `carry`: `carry % 32 = pend * 2^(5-p)`.  The decoder that has
consumed all symbols emitted so far holds the other `8 - p` high bits of the
straddled byte, value `dpend`, in state `shift = p`, `carry = dpend * 2^p`
(or the initial `shift = 8`, `carry = 0` when `p = 0`).  Feeding the
encoder's remaining output to the decoder yields the straddled byte followed
by the remaining input bytes, and the decoder finishes with `carry = 0`, so
the trailing partial-byte store is never attempted on a round trip. -/

theorem encLoop_decLoopN_core :
    ∀ (rest : List Nat) (p pend dpend carryE : Nat),
      p ≤ 5 → pend < 2 ^ p → dpend < 2 ^ (if p = 0 then 0 else 8 - p) →
      carryE % 32 = pend * 2 ^ (5 - p) →
      (∀ b ∈ rest, b < 256) →
      ∃ fs : Nat,
        decLoopN (encLoop (fun v => v) rest (3 + p) carryE)
            (if p = 0 then 8 else p) (if p = 0 then 0 else dpend * 2 ^ p)
          = ((if p = 0 then [] else [dpend * 2 ^ p + pend]) ++ rest, fs, 0) := by
  intro rest
  induction rest with
  | nil =>
    intro p pend dpend carryE hp hpend hdpend hcarry _
    interval_cases p
    · exact ⟨8, by norm_num [encLoop, decLoopN]⟩
    · refine ⟨4, ?_⟩
      norm_num at hpend hdpend hcarry ⊢
      have h31 : carryE &&& 31 = pend * 16 := by rw [and_31_eq_mod]; omega
      have e1 : pend * 16 &&& 255 = pend * 16 := by rw [and_255_eq_mod]; omega
      have e2 : ((pend * 16) <<< 4) &&& 255 = 0 := by rw [and_255_eq_mod]; omega
      have e3 : (pend * 16) >>> 4 = pend := by omega
      have e4 : dpend * 2 ||| pend = dpend * 2 + pend := by
        have h := lor_disjoint_eq_add dpend pend 1 (by omega); norm_num at h; exact h
      simp only [encLoop]
      norm_num [h31]
      norm_num [decLoopN, e1, e2, e3, e4]
    · refine ⟨5, ?_⟩
      norm_num at hpend hdpend hcarry ⊢
      have h31 : carryE &&& 31 = pend * 8 := by rw [and_31_eq_mod]; omega
      have e1 : pend * 8 &&& 255 = pend * 8 := by rw [and_255_eq_mod]; omega
      have e2 : ((pend * 8) <<< 5) &&& 255 = 0 := by rw [and_255_eq_mod]; omega
      have e3 : (pend * 8) >>> 3 = pend := by omega
      have e4 : dpend * 4 ||| pend = dpend * 4 + pend := by
        have h := lor_disjoint_eq_add dpend pend 2 (by omega); norm_num at h; exact h
      simp only [encLoop]
      norm_num [h31]
      norm_num [decLoopN, e1, e2, e3, e4]
    · refine ⟨6, ?_⟩
      norm_num at hpend hdpend hcarry ⊢
      have h31 : carryE &&& 31 = pend * 4 := by rw [and_31_eq_mod]; omega
      have e1 : pend * 4 &&& 255 = pend * 4 := by rw [and_255_eq_mod]; omega
      have e2 : ((pend * 4) <<< 6) &&& 255 = 0 := by rw [and_255_eq_mod]; omega
      have e3 : (pend * 4) >>> 2 = pend := by omega
      have e4 : dpend * 8 ||| pend = dpend * 8 + pend := by
        have h := lor_disjoint_eq_add dpend pend 3 (by omega); norm_num at h; exact h
      simp only [encLoop]
      norm_num [h31]
      norm_num [decLoopN, e1, e2, e3, e4]
    · refine ⟨7, ?_⟩
      norm_num at hpend hdpend hcarry ⊢
      have h31 : carryE &&& 31 = pend * 2 := by rw [and_31_eq_mod]; omega
      have e1 : pend * 2 &&& 255 = pend * 2 := by rw [and_255_eq_mod]; omega
      have e2 : ((pend * 2) <<< 7) &&& 255 = 0 := by rw [and_255_eq_mod]; omega
      have e3 : (pend * 2) >>> 1 = pend := by omega
      have e4 : dpend * 16 ||| pend = dpend * 16 + pend := by
        have h := lor_disjoint_eq_add dpend pend 4 (by omega); norm_num at h; exact h
      simp only [encLoop]
      norm_num [h31]
      norm_num [decLoopN, e1, e2, e3, e4]
    · refine ⟨8, ?_⟩
      norm_num at hpend hdpend hcarry ⊢
      have h31 : carryE &&& 31 = pend := by rw [and_31_eq_mod]; omega
      have e4 : dpend * 32 ||| (pend &&& 255) = dpend * 32 + pend := by
        have m : pend &&& 255 = pend := by rw [and_255_eq_mod]; omega
        rw [m]
        have h := lor_disjoint_eq_add dpend pend 5 (by omega); norm_num at h; exact h
      simp only [encLoop]
      norm_num [h31]
      norm_num [decLoopN, e4]
  | cons b rest ih =>
    intro p pend dpend carryE hp hpend hdpend hcarry hb
    have hblt : b < 256 := hb b (by simp)
    have hbr : ∀ y ∈ rest, y < 256 := fun y hy => hb y (by simp [hy])
    interval_cases p
    · -- p = 0
      have hp0 : pend = 0 := by omega
      subst hp0
      norm_num at hpend hdpend hcarry ⊢
      obtain ⟨fs, hfs⟩ := ih 3 (b % 8) (b / 8) (b <<< 2) (by norm_num) (by omega)
        (by norm_num; omega) (by omega) hbr
      norm_num at hfs
      rw [(by omega : b / 8 * 8 + b % 8 = b)] at hfs
      refine ⟨fs, ?_⟩
      have hsym : (carryE ||| b >>> 3) &&& 31 = b / 8 := by
        rw [Nat.and_distrib_right, and_31_eq_mod, hcarry, Nat.zero_or, and_31_eq_mod]
        omega
      have ec : 0 ||| (b / 8 &&& 255) <<< 3 = b / 8 * 8 := by
        rw [Nat.zero_or, and_255_eq_mod]
        omega
      simp only [encLoop]
      norm_num [hsym]
      simp only [decLoopN]
      norm_num [ec]
      exact hfs
    · -- p = 1
      norm_num at hpend hdpend hcarry ⊢
      obtain ⟨fs, hfs⟩ := ih 4 (b % 16) (b / 16) (b <<< 1) (by norm_num) (by omega)
        (by norm_num; omega) (by omega) hbr
      norm_num at hfs
      rw [(by omega : b / 16 * 16 + b % 16 = b)] at hfs
      refine ⟨fs, ?_⟩
      have hsym : (carryE ||| b >>> 4) &&& 31 = pend * 16 + b / 16 := by
        rw [Nat.and_distrib_right, and_31_eq_mod, hcarry, and_31_eq_mod]
        have h := lor_disjoint_eq_add pend ((b >>> 4) % 32) 4 (by omega)
        norm_num at h
        omega
      have e1 : (pend * 16 + b / 16) &&& 255 = pend * 16 + b / 16 := by
        rw [and_255_eq_mod]; omega
      have e2 : ((pend * 16 + b / 16) <<< 4) &&& 255 = b / 16 * 16 := by
        rw [and_255_eq_mod]; omega
      have e3 : (pend * 16 + b / 16) >>> 4 = pend := by omega
      have e4 : dpend * 2 ||| pend = dpend * 2 + pend := by
        have h := lor_disjoint_eq_add dpend pend 1 (by omega); norm_num at h; exact h
      simp only [encLoop]
      norm_num [hsym]
      simp only [decLoopN]
      norm_num [e1, e2, e3, e4, hfs]
    · -- p = 2
      norm_num at hpend hdpend hcarry ⊢
      obtain ⟨fs, hfs⟩ := ih 5 (b % 32) (b / 32) b (by norm_num) (by omega)
        (by norm_num; omega) (by omega) hbr
      norm_num at hfs
      rw [(by omega : b / 32 * 32 + b % 32 = b)] at hfs
      refine ⟨fs, ?_⟩
      have hsym : (carryE ||| b >>> 5) &&& 31 = pend * 8 + b / 32 := by
        rw [Nat.and_distrib_right, and_31_eq_mod, hcarry, and_31_eq_mod]
        have h := lor_disjoint_eq_add pend ((b >>> 5) % 32) 3 (by omega)
        norm_num at h
        omega
      have e1 : (pend * 8 + b / 32) &&& 255 = pend * 8 + b / 32 := by
        rw [and_255_eq_mod]; omega
      have e2 : ((pend * 8 + b / 32) <<< 5) &&& 255 = b / 32 * 32 := by
        rw [and_255_eq_mod]; omega
      have e3 : (pend * 8 + b / 32) >>> 3 = pend := by omega
      have e4 : dpend * 4 ||| pend = dpend * 4 + pend := by
        have h := lor_disjoint_eq_add dpend pend 2 (by omega); norm_num at h; exact h
      simp only [encLoop]
      norm_num [hsym]
      simp only [decLoopN]
      norm_num [e1, e2, e3, e4, hfs]
    · -- p = 3 (two symbols for this byte)
      norm_num at hpend hdpend hcarry ⊢
      obtain ⟨fs, hfs⟩ := ih 1 (b % 2) (b / 2) (b <<< 4) (by norm_num) (by omega)
        (by norm_num; omega) (by omega) hbr
      norm_num at hfs
      rw [(by omega : b / 2 * 2 + b % 2 = b)] at hfs
      refine ⟨fs, ?_⟩
      have hsym : (carryE ||| b >>> 6) &&& 31 = pend * 4 + b / 64 := by
        rw [Nat.and_distrib_right, and_31_eq_mod, hcarry, and_31_eq_mod]
        have h := lor_disjoint_eq_add pend ((b >>> 6) % 32) 2 (by omega)
        norm_num at h
        omega
      have e1 : (pend * 4 + b / 64) &&& 255 = pend * 4 + b / 64 := by
        rw [and_255_eq_mod]; omega
      have e2 : ((pend * 4 + b / 64) <<< 6) &&& 255 = b / 64 * 64 := by
        rw [and_255_eq_mod]; omega
      have e3 : (pend * 4 + b / 64) >>> 2 = pend := by omega
      have e4 : dpend * 8 ||| pend = dpend * 8 + pend := by
        have h := lor_disjoint_eq_add dpend pend 3 (by omega); norm_num at h; exact h
      have e7 : b / 64 * 64 ||| ((b >>> 1 &&& 31) &&& 255) <<< 1 = b / 2 * 2 := by
        have m1 : ((b >>> 1 &&& 31) &&& 255) <<< 1 = b / 2 % 32 * 2 := by
          rw [and_31_eq_mod, and_255_eq_mod]; omega
        rw [m1]
        have h := lor_disjoint_eq_add (b / 64) (b / 2 % 32 * 2) 6 (by omega)
        norm_num at h
        omega
      simp only [encLoop]
      norm_num [hsym]
      simp only [decLoopN]
      norm_num [e1, e2, e3, e4, e7, hfs]
    · -- p = 4 (two symbols for this byte)
      norm_num at hpend hdpend hcarry ⊢
      obtain ⟨fs, hfs⟩ := ih 2 (b % 4) (b / 4) (b <<< 3) (by norm_num) (by omega)
        (by norm_num; omega) (by omega) hbr
      norm_num at hfs
      rw [(by omega : b / 4 * 4 + b % 4 = b)] at hfs
      refine ⟨fs, ?_⟩
      have hsym : (carryE ||| b >>> 7) &&& 31 = pend * 2 + b / 128 := by
        rw [Nat.and_distrib_right, and_31_eq_mod, hcarry, and_31_eq_mod]
        have h := lor_disjoint_eq_add pend ((b >>> 7) % 32) 1 (by omega)
        norm_num at h
        omega
      have e1 : (pend * 2 + b / 128) &&& 255 = pend * 2 + b / 128 := by
        rw [and_255_eq_mod]; omega
      have e2 : ((pend * 2 + b / 128) <<< 7) &&& 255 = b / 128 * 128 := by
        rw [and_255_eq_mod]; omega
      have e3 : (pend * 2 + b / 128) >>> 1 = pend := by omega
      have e4 : dpend * 16 ||| pend = dpend * 16 + pend := by
        have h := lor_disjoint_eq_add dpend pend 4 (by omega); norm_num at h; exact h
      have e7 : b / 128 * 128 ||| ((b >>> 2 &&& 31) &&& 255) <<< 2 = b / 4 * 4 := by
        have m1 : ((b >>> 2 &&& 31) &&& 255) <<< 2 = b / 4 % 32 * 4 := by
          rw [and_31_eq_mod, and_255_eq_mod]; omega
        rw [m1]
        have h := lor_disjoint_eq_add (b / 128) (b / 4 % 32 * 4) 7 (by omega)
        norm_num at h
        omega
      simp only [encLoop]
      norm_num [hsym]
      simp only [decLoopN]
      norm_num [e1, e2, e3, e4, e7, hfs]
    · -- p = 5 (pending carry flushes as a full symbol)
      norm_num at hpend hdpend hcarry ⊢
      obtain ⟨fs, hfs⟩ := ih 3 (b % 8) (b / 8) (b <<< 2) (by norm_num) (by omega)
        (by norm_num; omega) (by omega) hbr
      norm_num at hfs
      rw [(by omega : b / 8 * 8 + b % 8 = b)] at hfs
      refine ⟨fs, ?_⟩
      have hsym : (carryE ||| b >>> 8) &&& 31 = pend := by
        have h0 : b >>> 8 = 0 := by omega
        rw [h0, Nat.or_zero, and_31_eq_mod]
        omega
      have e4 : dpend * 32 ||| (pend &&& 255) = dpend * 32 + pend := by
        have m : pend &&& 255 = pend := by rw [and_255_eq_mod]; omega
        rw [m]
        have h := lor_disjoint_eq_add dpend pend 5 (by omega); norm_num at h; exact h
      have ec : 0 ||| ((b >>> 3 &&& 31) &&& 255) <<< 3 = b / 8 * 8 := by
        rw [Nat.zero_or, and_31_eq_mod, and_255_eq_mod]
        omega
      simp only [encLoop]
      norm_num [hsym]
      simp only [decLoopN]
      norm_num [e4, ec, hfs]

/-! ### Store-sequence and slice lemmas -/

theorem writeSeq_length (len : Nat) (ws : List Nat) : (writeSeq len ws).length = len := by
  simp only [writeSeq, List.length_append, List.length_take, List.length_map,
    List.length_replicate]
  omega

theorem writeSeq_eq (len : Nat) (ws : List Nat) (hlen : ws.length = len)
    (hlt : ∀ v ∈ ws, v < 256) : writeSeq len ws = ws := by
  subst hlen
  simp only [writeSeq, Nat.sub_self, List.replicate_zero, List.append_nil]
  rw [List.take_of_length_le (by simp)]
  conv_rhs => rw [← List.map_id ws]
  exact List.map_congr_left fun v hv => Nat.mod_eq_of_lt (hlt v hv)

theorem writeSeq_drop_overflow (len : Nat) (ws : List Nat) (x : Nat) (hlen : ws.length = len) :
    writeSeq len (ws ++ [x]) = ws.map (fun v => v % 256) := by
  subst hlen
  simp only [writeSeq, List.map_append, List.length_append, List.length_map]
  rw [List.take_left' (by simp), (by simp : ws.length - (ws.length + [x].length) = 0),
    List.replicate_zero, List.append_nil]

theorem sliceIndexJs_le (len : Nat) (v : Option Int) (dflt : Nat) (hd : dflt ≤ len) :
    sliceIndexJs len v dflt ≤ len := by
  rcases v with - | x
  · exact hd
  · simp only [sliceIndexJs]
    split <;> omega

theorem sliceIndexJs_none (len dflt : Nat) : sliceIndexJs len none dflt = dflt := rfl

/-! ### Round-trip theorems (byte codec) -/

/-- String-form round trip for any codec whose character lookup inverts its
alphabet on the 32 canonical symbols. -/
theorem roundtrip_encodeToString (c : Base32Crockford) (B : List Nat)
    (hB : ∀ b ∈ B, b < 256)
    (hinv : ∀ v, v < 32 → alookup c.lookup (c.alphabet.getD v ' ') = some v) :
    decodeFromString c (encodeToString c B none none) none none = .ok B := by
  have hvals := encLoop_lt32 B 3 0
  have hmap : encodeToString c B none none
      = (encLoop (fun v => v) B 3 0).map (fun v => c.alphabet.getD v ' ') := by
    simp only [encodeToString, sliceIndexJs, List.drop_zero, Nat.sub_zero, List.take_length]
    exact encLoop_map _ B 3 0
  obtain ⟨fs, hcore⟩ := encLoop_decLoopN_core B 0 0 0 0 (by omega) (by norm_num)
    (by norm_num) (by norm_num) hB
  norm_num at hcore
  have hresolve : ∀ x ∈ encLoop (fun v => v) B 3 0,
      alookup c.lookup ((fun v => c.alphabet.getD v ' ') x) = some x :=
    fun x hx => hinv x (hvals x hx)
  simp only [decodeFromString, sliceIndexJs, List.drop_zero, Nat.sub_zero, List.take_length]
  rw [hmap, List.length_map, decLoop_map _ _ _ _ _ _ _ hresolve,
    decLoop_eq_decLoopN _ _ 8 8 0 (by norm_num) (by omega) (by omega), hcore]
  have hlen2 : (encLoop (fun v => v) B 3 0).length = (8 * B.length + 4) / 5 :=
    encLoop_length _ B 3 0 (by omega) (by omega)
  have hn : (8 * B.length + 4) / 5 * 5 / 8 = B.length := by omega
  rw [hlen2]
  norm_num [hn]
  exact writeSeq_eq _ _ rfl hB

/-- Byte-buffer-form round trip for any codec whose byte-code tables invert
each other on the 32 canonical values. -/
theorem roundtrip_encode (c : Base32Crockford) (B : List Nat)
    (hB : ∀ b ∈ B, b < 256)
    (hbm : ∀ v, v < 32 → c.baseMap.getD v 0 < 256)
    (hinv : ∀ v, v < 32 → nlookup c.baseMapLookup (c.baseMap.getD v 0) = some v) :
    decode c (encode c B none none) none none = .ok B := by
  have hvals := encLoop_lt32 B 3 0
  have hcount : ((encLoop (fun v => c.baseMap.getD v 0) B 3 0)).length
      = (B.length * 8 + 4) / 5 := by
    have h := encLoop_length (fun v => c.baseMap.getD v 0) B 3 0 (by omega) (by omega)
    omega
  have hmap : encode c B none none
      = (encLoop (fun v => v) B 3 0).map (fun v => c.baseMap.getD v 0) := by
    simp only [encode, sliceIndexJs, List.drop_zero, Nat.sub_zero, List.take_length]
    rw [writeSeq_eq _ _ (by omega) ?_, encLoop_map]
    intro v hv
    rw [encLoop_map] at hv
    simp only [List.mem_map] at hv
    obtain ⟨x, hx, rfl⟩ := hv
    exact hbm x (hvals x hx)
  obtain ⟨fs, hcore⟩ := encLoop_decLoopN_core B 0 0 0 0 (by omega) (by norm_num)
    (by norm_num) (by norm_num) hB
  norm_num at hcore
  have hresolve : ∀ x ∈ encLoop (fun v => v) B 3 0,
      nlookup c.baseMapLookup ((fun v => c.baseMap.getD v 0) x) = some x :=
    fun x hx => hinv x (hvals x hx)
  simp only [decode, sliceIndexJs, List.drop_zero, Nat.sub_zero, List.take_length]
  rw [hmap, List.length_map, decLoop_map _ _ _ _ _ _ _ hresolve,
    decLoop_eq_decLoopN _ _ 8 8 0 (by norm_num) (by omega) (by omega), hcore]
  have hlen2 : (encLoop (fun v => v) B 3 0).length = (8 * B.length + 4) / 5 :=
    encLoop_length _ B 3 0 (by omega) (by omega)
  have hn : (8 * B.length + 4) / 5 * 5 / 8 = B.length := by omega
  rw [hlen2]
  norm_num [hn]
  exact writeSeq_eq _ _ rfl hB

/-! ### Integer codec lemmas -/

theorem encodeIntDigits_append (a : List Char) :
    ∀ n rest, encodeIntDigits a n rest = encodeIntDigits a n [] ++ rest := by
  intro n
  induction n using Nat.strong_induction_on with
  | _ n ih =>
    intro rest
    by_cases h : n = 0
    · subst h
      simp [encodeIntDigits]
    · conv_lhs => rw [encodeIntDigits]
      conv_rhs => rw [encodeIntDigits]
      simp only [h, dite_false]
      have hlt : n / 32 < n := Nat.div_lt_self (Nat.pos_of_ne_zero h) (by norm_num)
      rw [ih _ hlt (a.getD (n % 32) ' ' :: rest), ih _ hlt [a.getD (n % 32) ' ']]
      simp

theorem encodeIntDigits_ne_nil (a : List Char) (n : Nat) (h : n ≠ 0) :
    encodeIntDigits a n [] ≠ [] := by
  rw [encodeIntDigits]
  simp only [h, dite_false]
  rw [encodeIntDigits_append]
  simp

theorem encodeIntDigits_mem (a : List Char) :
    ∀ n c, c ∈ encodeIntDigits a n [] → ∃ v, v < 32 ∧ c = a.getD v ' ' := by
  intro n
  induction n using Nat.strong_induction_on with
  | _ n ih =>
    intro c hc
    by_cases h : n = 0
    · subst h; simp [encodeIntDigits] at hc
    · rw [encodeIntDigits] at hc
      simp only [h, dite_false] at hc
      rw [encodeIntDigits_append] at hc
      have hlt : n / 32 < n := Nat.div_lt_self (Nat.pos_of_ne_zero h) (by norm_num)
      rcases List.mem_append.mp hc with h1 | h1
      · exact ih _ hlt c h1
      · simp only [List.mem_singleton] at h1
        exact ⟨n % 32, by omega, h1⟩

theorem decodeIntLoop_append_one (lk : List (Char × Nat)) (c : Char) (v : Nat)
    (hv : alookup lk c = some v) :
    ∀ (xs : List Char) (i acc : Nat),
      decodeIntLoop lk (xs ++ [c]) i acc
        = (decodeIntLoop lk xs i acc).map (fun r => r * 32 + v) := by
  intro xs
  induction xs with
  | nil => intro i acc; simp [decodeIntLoop, hv, Except.map]
  | cons x rest ih =>
    intro i acc
    simp only [List.cons_append, decodeIntLoop]
    rcases hx : alookup lk x with - | w
    · rfl
    · exact ih (i + 1) (acc * 32 + w)

theorem decodeIntLoop_encodeIntDigits (lk : List (Char × Nat)) (a : List Char)
    (hinv : ∀ v, v < 32 → alookup lk (a.getD v ' ') = some v) :
    ∀ n i acc, decodeIntLoop lk (encodeIntDigits a n []) i acc
      = .ok (acc * 32 ^ (encodeIntDigits a n []).length + n) := by
  intro n
  induction n using Nat.strong_induction_on with
  | _ n ih =>
    intro i acc
    by_cases h : n = 0
    · subst h; simp [encodeIntDigits, decodeIntLoop]
    · have hlt : n / 32 < n := Nat.div_lt_self (Nat.pos_of_ne_zero h) (by norm_num)
      conv_lhs => rw [encodeIntDigits]
      conv_rhs => rw [encodeIntDigits]
      simp only [h, dite_false]
      rw [encodeIntDigits_append,
        decodeIntLoop_append_one lk _ _ (hinv (n % 32) (by omega)) _ i acc,
        ih _ hlt i acc]
      simp only [Except.map, List.length_append, List.length_singleton]
      congr 1
      have hp : (32 : Nat) ^ ((encodeIntDigits a (n / 32) []).length + 1)
          = 32 ^ (encodeIntDigits a (n / 32) []).length * 32 := by ring
      rw [hp]
      have := Nat.div_add_mod n 32
      ring_nf
      omega

theorem decodeBigIntLoop_append_one (lk : List (Char × Nat)) (c : Char) (v : Nat)
    (hv : alookup lk c = some v) :
    ∀ (xs : List Char) (i : Nat) (acc : Int),
      decodeBigIntLoop lk (xs ++ [c]) i acc
        = (decodeBigIntLoop lk xs i acc).map (fun r => r * 32 + (v : Int)) := by
  intro xs
  induction xs with
  | nil => intro i acc; simp [decodeBigIntLoop, hv, Except.map]
  | cons x rest ih =>
    intro i acc
    simp only [List.cons_append, decodeBigIntLoop]
    rcases hx : alookup lk x with - | w
    · rfl
    · exact ih (i + 1) (acc * 32 + (w : Int))

theorem decodeBigIntLoop_encodeIntDigits (lk : List (Char × Nat)) (a : List Char)
    (hinv : ∀ v, v < 32 → alookup lk (a.getD v ' ') = some v) :
    ∀ (n : Nat) (i : Nat) (acc : Int), decodeBigIntLoop lk (encodeIntDigits a n []) i acc
      = .ok (acc * 32 ^ (encodeIntDigits a n []).length + (n : Int)) := by
  intro n
  induction n using Nat.strong_induction_on with
  | _ n ih =>
    intro i acc
    by_cases h : n = 0
    · subst h; simp [encodeIntDigits, decodeBigIntLoop]
    · have hlt : n / 32 < n := Nat.div_lt_self (Nat.pos_of_ne_zero h) (by norm_num)
      conv_lhs => rw [encodeIntDigits]
      conv_rhs => rw [encodeIntDigits]
      simp only [h, dite_false]
      rw [encodeIntDigits_append,
        decodeBigIntLoop_append_one lk _ _ (hinv (n % 32) (by omega)) _ i acc,
        ih _ hlt i acc]
      simp only [Except.map, List.length_append, List.length_singleton]
      congr 1
      have hp : (32 : Int) ^ ((encodeIntDigits a (n / 32) []).length + 1)
          = 32 ^ (encodeIntDigits a (n / 32) []).length * 32 := by ring
      rw [hp]
      have hdm : ((n / 32 : Nat) : Int) * 32 + ((n % 32 : Nat) : Int) = (n : Int) := by
        have := Nat.div_add_mod n 32
        push_cast
        omega
      ring_nf
      ring_nf at hdm
      omega

/-! ### Decidable facts about the default codec -/

theorem default_lookup_inverts :
    ∀ v, v < 32 → alookup base32Crockford.lookup (base32Crockford.alphabet.getD v ' ') = some v := by
  decide

theorem default_baseMap_lt (v : Nat) (hv : v < 32) : base32Crockford.baseMap.getD v 0 < 256 := by
  revert v hv
  decide

theorem default_baseMapLookup_inverts :
    ∀ v, v < 32 → nlookup base32Crockford.baseMapLookup (base32Crockford.baseMap.getD v 0) = some v := by
  decide

theorem default_alphabet_ne_dash : ∀ v, v < 32 → base32Crockford.alphabet.getD v ' ' ≠ '-' := by
  decide

/-! ### Integer round trips on the default codec -/

theorem decodeInt_encodeInt (n : Int)
    (h1 : -MAX_SAFE_INTEGER ≤ n) (h2 : n ≤ MAX_SAFE_INTEGER) :
    (encodeInt base32Crockford n).bind (fun s => decodeInt base32Crockford s) = .ok n := by
  have hM : MAX_SAFE_INTEGER = 2 ^ 53 - 1 := rfl
  rcases lt_trichotomy n 0 with hn | hn | hn
  · have hna : n.natAbs ≠ 0 := by omega
    have hd := encodeIntDigits_ne_nil base32Crockford.alphabet n.natAbs hna
    rw [encodeInt, if_neg (by omega : ¬ n < -MAX_SAFE_INTEGER),
      if_neg (by omega : ¬ MAX_SAFE_INTEGER < n), if_neg (by omega : ¬ n = 0)]
    simp only [Except.bind, if_pos hn]
    rw [decodeInt]
    simp only [List.headD_cons, List.length_cons]
    have hlen : 1 < (encodeIntDigits base32Crockford.alphabet n.natAbs []).length + 1 := by
      rcases List.exists_cons_of_ne_nil hd with ⟨c, t, hct⟩
      rw [hct]; simp
    simp only [beq_self_eq_true, Bool.true_and, decide_eq_true_eq, if_pos hlen,
      List.drop_succ_cons, List.drop_zero]
    rw [decodeIntLoop_encodeIntDigits base32Crockford.lookup base32Crockford.alphabet
      default_lookup_inverts n.natAbs 1 0]
    have hpos : 0 < n.natAbs := by omega
    simp only [Nat.zero_mul, Nat.zero_add, decide_eq_true_eq, if_pos hpos]
    congr 1
    omega
  · subst hn
    rw [encodeInt]
    norm_num [hM]
    rfl
  · have hna : n.natAbs ≠ 0 := by omega
    have hd := encodeIntDigits_ne_nil base32Crockford.alphabet n.natAbs hna
    rw [encodeInt, if_neg (by omega : ¬ n < -MAX_SAFE_INTEGER),
      if_neg (by omega : ¬ MAX_SAFE_INTEGER < n), if_neg (by omega : ¬ n = 0)]
    simp only [Except.bind, if_neg (by omega : ¬ n < 0)]
    rcases List.exists_cons_of_ne_nil hd with ⟨c, t, hct⟩
    have hcmem : c ∈ encodeIntDigits base32Crockford.alphabet n.natAbs [] := by
      rw [hct]; simp
    obtain ⟨v, hv, hcv⟩ := encodeIntDigits_mem base32Crockford.alphabet n.natAbs c hcmem
    have hcne : c ≠ '-' := hcv ▸ default_alphabet_ne_dash v hv
    rw [decodeInt, hct]
    simp only [List.headD_cons]
    have hbeq : (c == '-') = false := by simpa using hcne
    simp only [hbeq, Bool.false_and]
    norm_num
    rw [← hct, decodeIntLoop_encodeIntDigits base32Crockford.lookup base32Crockford.alphabet
      default_lookup_inverts n.natAbs 0 0]
    norm_num
    omega

theorem decodeBigInt_encodeBigInt (m : Int) :
    decodeBigInt base32Crockford (encodeBigInt base32Crockford m) = .ok m := by
  rcases lt_trichotomy m 0 with hm | hm | hm
  · have hna : m.natAbs ≠ 0 := by omega
    have hd := encodeIntDigits_ne_nil base32Crockford.alphabet m.natAbs hna
    rw [encodeBigInt, if_neg (by omega), if_pos hm]
    rw [decodeBigInt]
    simp only [List.headD_cons, List.length_cons]
    have hlen : 1 < (encodeIntDigits base32Crockford.alphabet m.natAbs []).length + 1 := by
      rcases List.exists_cons_of_ne_nil hd with ⟨c, t, hct⟩
      rw [hct]; simp
    simp only [beq_self_eq_true, Bool.true_and, decide_eq_true_eq, if_pos hlen,
      List.drop_succ_cons, List.drop_zero]
    rw [decodeBigIntLoop_encodeIntDigits base32Crockford.lookup base32Crockford.alphabet
      default_lookup_inverts m.natAbs 1 0]
    simp only [Int.zero_mul, Int.zero_add, ite_true]
    congr 1
    omega
  · subst hm
    rw [encodeBigInt]
    norm_num
    rfl
  · have hna : m.natAbs ≠ 0 := by omega
    have hd := encodeIntDigits_ne_nil base32Crockford.alphabet m.natAbs hna
    rw [encodeBigInt, if_neg (by omega), if_neg (by omega)]
    rcases List.exists_cons_of_ne_nil hd with ⟨c, t, hct⟩
    have hcmem : c ∈ encodeIntDigits base32Crockford.alphabet m.natAbs [] := by
      rw [hct]; simp
    obtain ⟨v, hv, hcv⟩ := encodeIntDigits_mem base32Crockford.alphabet m.natAbs c hcmem
    have hcne : c ≠ '-' := hcv ▸ default_alphabet_ne_dash v hv
    rw [decodeBigInt, hct]
    simp only [List.headD_cons]
    have hbeq : (c == '-') = false := by simpa using hcne
    simp only [hbeq, Bool.false_and]
    norm_num
    rw [← hct, decodeBigIntLoop_encodeIntDigits base32Crockford.lookup base32Crockford.alphabet
      default_lookup_inverts m.natAbs 0 0]
    norm_num
    omega

/-! ### Alias-table membership lemmas (alias rules apply to every alphabet) -/

theorem createAlphabetLookupsStep_mono (a : List Char) (L : Lookups) (i : Nat)
    (x : Char × Nat) (hx : x ∈ L.lookup) :
    x ∈ (createAlphabetLookupsStep a L i).lookup := by
  simp only [createAlphabetLookupsStep]
  split
  · simp [hx]
  · split
    · simp [hx]
    · split <;> simp [hx]

theorem foldl_lookup_mono (a : List Char) (l : List Nat) (L : Lookups)
    (x : Char × Nat) (hx : x ∈ L.lookup) :
    x ∈ (l.foldl (createAlphabetLookupsStep a) L).lookup := by
  induction l generalizing L with
  | nil => exact hx
  | cons j rest ih => exact ih _ (createAlphabetLookupsStep_mono a L j x hx)

theorem createAlphabetLookupsStep_adds_zero_aliases (a : List Char) (L : Lookups) (i : Nat)
    (h : a.getD i ' ' = '0') :
    ('O', i) ∈ (createAlphabetLookupsStep a L i).lookup ∧
    ('o', i) ∈ (createAlphabetLookupsStep a L i).lookup := by
  unfold createAlphabetLookupsStep
  rw [if_pos h]
  simp

theorem createAlphabetLookupsStep_adds_one_aliases (a : List Char) (L : Lookups) (i : Nat)
    (h : a.getD i ' ' = '1') :
    ('I', i) ∈ (createAlphabetLookupsStep a L i).lookup ∧
    ('i', i) ∈ (createAlphabetLookupsStep a L i).lookup ∧
    ('L', i) ∈ (createAlphabetLookupsStep a L i).lookup ∧
    ('l', i) ∈ (createAlphabetLookupsStep a L i).lookup := by
  unfold createAlphabetLookupsStep
  rw [if_neg (by rw [h]; decide), if_pos h]
  simp

theorem createAlphabetLookupsStep_adds_lower_alias (a : List Char) (L : Lookups) (i : Nat)
    (h0 : a.getD i ' ' ≠ '0') (h1 : a.getD i ' ' ≠ '1')
    (hcode : 64 < (a.getD i ' ').toNat) :
    (Char.ofNat ((a.getD i ' ').toNat + 32), i) ∈ (createAlphabetLookupsStep a L i).lookup := by
  unfold createAlphabetLookupsStep
  rw [if_neg h0, if_neg h1, if_pos hcode]
  simp

theorem foldl_range_adds (a : List Char) (x : Char × Nat) (i : Nat)
    (hstep : ∀ L : Lookups, x ∈ (createAlphabetLookupsStep a L i).lookup) :
    ∀ (l : List Nat) (L : Lookups), i ∈ l →
      x ∈ (l.foldl (createAlphabetLookupsStep a) L).lookup := by
  intro l
  induction l with
  | nil => intro L h; simp at h
  | cons j rest ih =>
    intro L h
    rcases List.mem_cons.mp h with rfl | h'
    · exact foldl_lookup_mono a rest _ x (hstep L)
    · exact ih _ h'

/-! ### `toAlphabet` characterisation -/

theorem checkAlphabetChars_eq_none :
    ∀ (xs : List Char) (i : Nat) (seen : List Char),
      checkAlphabetChars xs i seen = none ↔
        (∀ c ∈ xs, alookup defaultAlphabetLookup c ≠ none) ∧ xs.Nodup ∧
          ∀ c ∈ xs, c ∉ seen := by
  intro xs
  induction xs with
  | nil => intro i seen; simp [checkAlphabetChars]
  | cons c rest ih =>
    intro i seen
    simp only [checkAlphabetChars]
    by_cases hv : alookup defaultAlphabetLookup c = none
    · simp only [if_pos hv]
      constructor
      · intro h; cases h
      · rintro ⟨hval, -, -⟩
        exact absurd hv (hval c (by simp))
    · simp only [if_neg hv]
      by_cases hseen : seen.contains c
      · simp only [if_pos hseen]
        constructor
        · intro h; cases h
        · rintro ⟨-, -, hns⟩
          exact absurd (by simpa using hseen : c ∈ seen) (hns c (by simp))
      · simp only [if_neg hseen]
        rw [ih (i + 1) (c :: seen)]
        have hcs : c ∉ seen := fun hmem => hseen (by simpa using hmem)
        constructor
        · rintro ⟨hval, hnd, hns⟩
          refine ⟨?_, ?_, ?_⟩
          · intro x hx
            rcases List.mem_cons.mp hx with rfl | hx'
            · exact hv
            · exact hval x hx'
          · rw [List.nodup_cons]
            exact ⟨fun hc => (hns c hc) (by simp), hnd⟩
          · intro x hx
            rcases List.mem_cons.mp hx with rfl | hx'
            · exact hcs
            · intro hxs
              exact (hns x hx') (List.mem_cons_of_mem _ hxs)
        · rintro ⟨hval, hnd, hns⟩
          rw [List.nodup_cons] at hnd
          refine ⟨fun x hx => hval x (List.mem_cons_of_mem _ hx), hnd.2, ?_⟩
          intro x hx hxcs
          rcases List.mem_cons.mp hxcs with rfl | hxs
          · exact hnd.1 hx
          · exact (hns x (List.mem_cons_of_mem _ hx)) hxs

theorem toAlphabet_ok_iff (v : List Char) :
    (∃ a, toAlphabet (some v) = .ok a) ↔
      v.length = 32 ∧ (∀ c ∈ v, alookup defaultAlphabetLookup c ≠ none) ∧ v.Nodup := by
  simp only [toAlphabet]
  by_cases hlen : v.length = 32
  · simp only [hlen, ne_eq, not_true_eq_false, ite_false, true_and]
    rcases hchk : checkAlphabetChars v 0 [] with - | err
    · have h := (checkAlphabetChars_eq_none v 0 []).mp hchk
      simp only [true_and]
      constructor
      · intro _; exact ⟨h.1, h.2.1⟩
      · intro _; exact ⟨v, rfl⟩
    · constructor
      · rintro ⟨a, ha⟩; cases ha
      · rintro ⟨hval, hnd⟩
        have : checkAlphabetChars v 0 [] = none :=
          (checkAlphabetChars_eq_none v 0 []).mpr ⟨hval, hnd, by simp⟩
        rw [this] at hchk
        cases hchk
  · constructor
    · rintro ⟨a, ha⟩
      rw [if_pos (by simpa using hlen)] at ha
      cases ha
    · rintro ⟨h32, -⟩
      exact absurd h32 hlen

/-! ### `decodeIntLoop` error-shape lemmas -/

theorem decodeIntLoop_ok_of_valid (lk : List (Char × Nat)) :
    ∀ (xs : List Char) (i acc : Nat), (∀ c ∈ xs, alookup lk c ≠ none) →
      ∃ v, decodeIntLoop lk xs i acc = .ok v := by
  intro xs
  induction xs with
  | nil => intro i acc _; exact ⟨acc, rfl⟩
  | cons c rest ih =>
    intro i acc h
    rcases hc : alookup lk c with - | w
    · exact absurd hc (h c (by simp))
    · simp only [decodeIntLoop, hc]
      exact ih (i + 1) (acc * 32 + w) fun x hx => h x (by simp [hx])

theorem decodeIntLoop_error_shape (lk : List (Char × Nat)) :
    ∀ (xs : List Char) (i acc : Nat) (e : JsError), decodeIntLoop lk xs i acc = .error e →
      ∃ c j, e = .charSyntaxError c j := by
  intro xs
  induction xs with
  | nil => intro i acc e h; cases h
  | cons c rest ih =>
    intro i acc e h
    simp only [decodeIntLoop] at h
    rcases hc : alookup lk c with - | w
    · rw [hc] at h
      exact ⟨c, i, by cases h; rfl⟩
    · rw [hc] at h
      exact ih (i + 1) (acc * 32 + w) e h

/-! ### Slice length -/

theorem slice_length {α : Type} (xs : List α) (s e : Option Int) :
    ((xs.drop (sliceIndexJs xs.length s 0)).take
        (sliceIndexJs xs.length e xs.length - sliceIndexJs xs.length s 0)).length
      = sliceIndexJs xs.length e xs.length - sliceIndexJs xs.length s 0 := by
  have h1 := sliceIndexJs_le xs.length s 0 (by omega)
  have h2 := sliceIndexJs_le xs.length e xs.length (le_refl _)
  simp only [List.length_take, List.length_drop]
  omega

/-! ### Claim theorems -/

instance exceptDecidableEq {ε α : Type} [DecidableEq ε] [DecidableEq α] :
    DecidableEq (Except ε α) := fun a b =>
  match a, b with
  | .error x, .error y =>
    if h : x = y then isTrue (by rw [h]) else isFalse (fun hh => by cases hh; exact h rfl)
  | .ok x, .ok y =>
    if h : x = y then isTrue (by rw [h]) else isFalse (fun hh => by cases hh; exact h rfl)
  | .error _, .ok _ => isFalse (fun hh => by cases hh)
  | .ok _, .error _ => isFalse (fun hh => by cases hh)

/-- C1 counterexample: the claim quantifies over *any* constructed codec, but
the constructor accepts the alphabet `0123456789bBCDEFGHJKMNPQRSTVWXYZ`
(`'b'` is in the default lookup as an alias of `'B'`), and building its
tables lets `'B'`'s automatic lowercase alias overwrite the canonical entry
for the symbol `'b'` at index 10.  Decoding the encoding of the byte 0x50
under that codec returns 0x58. -/
theorem C1_counterexample :
    (mkBase32Crockford (some "0123456789bBCDEFGHJKMNPQRSTVWXYZ".toList)).map
        (fun c => decodeFromString c (encodeToString c [0x50] none none) none none)
      = .ok (.ok [0x58]) ∧ (0x58 : Nat) ≠ 0x50 :=
  ⟨rfl, by decide⟩

/-- C1 (amended): for every codec whose lookups invert its alphabet on the 32
canonical symbols — which holds for the default codec, and fails only when a
later symbol's automatic alias shadows an earlier canonical entry — decoding
the encoding of any byte sequence returns it, in both the text-string form
and the byte-buffer form. -/
theorem C1_roundtrip_inverting_codecs (c : Base32Crockford) (B : List Nat)
    (hB : ∀ b ∈ B, b < 256)
    (hinv : ∀ v, v < 32 → alookup c.lookup (c.alphabet.getD v ' ') = some v)
    (hbm : ∀ v, v < 32 → c.baseMap.getD v 0 < 256)
    (hinv2 : ∀ v, v < 32 → nlookup c.baseMapLookup (c.baseMap.getD v 0) = some v) :
    decodeFromString c (encodeToString c B none none) none none = .ok B ∧
    decode c (encode c B none none) none none = .ok B :=
  ⟨roundtrip_encodeToString c B hB hinv, roundtrip_encode c B hB hbm hinv2⟩

/-- Witness for C1's amended theorem at the default codec and `[0, 1, 255]`. -/
theorem C1_witness :
    decodeFromString base32Crockford (encodeToString base32Crockford [0, 1, 255] none none)
        none none = .ok [0, 1, 255] ∧
    decode base32Crockford (encode base32Crockford [0, 1, 255] none none) none none
      = .ok [0, 1, 255] :=
  C1_roundtrip_inverting_codecs base32Crockford [0, 1, 255] (by decide) (by decide)
    (by decide) (by decide)

/-- C2: for every integer of magnitude at most `2^53 - 1`,
`decodeInt (encodeInt n) = n` (all intermediate accumulator values stay at or
below the final magnitude, hence within the exactly-representable range of
the host's doubles, so exact integer arithmetic models the source), and for
every arbitrary-precision integer `m`, `decodeBigInt (encodeBigInt m) = m`. -/
theorem C2_integer_roundtrips (n m : Int)
    (h1 : -MAX_SAFE_INTEGER ≤ n) (h2 : n ≤ MAX_SAFE_INTEGER) :
    (encodeInt base32Crockford n).bind (fun s => decodeInt base32Crockford s) = .ok n ∧
    decodeBigInt base32Crockford (encodeBigInt base32Crockford m) = .ok m :=
  ⟨decodeInt_encodeInt n h1 h2, decodeBigInt_encodeBigInt m⟩

/-- Witness for C2 at the safe-integer ceiling `2^53 - 1` and a big integer
beyond it. -/
theorem C2_witness :
    (-MAX_SAFE_INTEGER ≤ (9007199254740991 : Int) ∧
      (9007199254740991 : Int) ≤ MAX_SAFE_INTEGER) ∧
    (encodeInt base32Crockford 9007199254740991).bind
        (fun s => decodeInt base32Crockford s) = .ok 9007199254740991 ∧
    decodeBigInt base32Crockford (encodeBigInt base32Crockford (-123456789123456789123456789))
      = .ok (-123456789123456789123456789) :=
  ⟨⟨by decide, by decide⟩,
    C2_integer_roundtrips 9007199254740991 (-123456789123456789123456789)
      (by decide) (by decide)⟩

/-- C3: the text-string and byte-buffer encoders produce exactly
`(n*8 + 4) / 5` symbols for an effective range of `n` bytes, and each
successful decode of an effective range of `n` symbols returns exactly
`n * 5 / 8` bytes (the decoders' output buffer is allocated at that size). -/
theorem C3_length_formulas (c : Base32Crockford) (input : List Nat) (str : List Char)
    (s1 e1 s2 e2 : Option Int) :
    (encodeToString c input s1 e1).length
        = ((sliceIndexJs input.length e1 input.length - sliceIndexJs input.length s1 0) * 8 + 4) / 5 ∧
    (encode c input s1 e1).length
        = ((sliceIndexJs input.length e1 input.length - sliceIndexJs input.length s1 0) * 8 + 4) / 5 ∧
    (∀ r, decodeFromString c str s2 e2 = .ok r →
        r.length = (sliceIndexJs str.length e2 str.length - sliceIndexJs str.length s2 0) * 5 / 8) ∧
    (∀ r, decode c input s1 e1 = .ok r →
        r.length = (sliceIndexJs input.length e1 input.length - sliceIndexJs input.length s1 0) * 5 / 8) := by
  refine ⟨?_, ?_, ?_, ?_⟩
  · simp only [encodeToString]
    rw [encLoop_length _ _ 3 0 (by omega) (by omega), slice_length]
    omega
  · simp only [encode]
    rw [writeSeq_length]
  · intro r hr
    simp only [decodeFromString] at hr
    split at hr
    · cases hr
    · cases hr
      rw [writeSeq_length]
  · intro r hr
    simp only [decode] at hr
    split at hr
    · cases hr
    · cases hr
      rw [writeSeq_length]

/-- Witness for C3 at one-byte and two-symbol inputs on the default codec. -/
theorem C3_witness :
    (encodeToString base32Crockford [255] none none).length
        = ((sliceIndexJs (1 : Nat) none 1 - sliceIndexJs (1 : Nat) none 0) * 8 + 4) / 5 ∧
    ([255] : List Nat).length
        = (sliceIndexJs (2 : Nat) none 2 - sliceIndexJs (2 : Nat) none 0) * 5 / 8 :=
  ⟨(C3_length_formulas base32Crockford [255] ['Z', 'W'] none none none none).1,
    (C3_length_formulas base32Crockford [255] ['Z', 'W'] none none none none).2.2.1 [255] rfl⟩

/-- C4 counterexample: decoding the single symbol `'Z'` — as a string
through `decodeFromString`, or as its char code 90 through the byte-buffer
`decode` — finishes the loop with `shift = 3 ≠ 8` and `carry = 248 ≠ 0`, yet
the returned byte sequence is empty: it does not contain the partial byte
248 as its last element, because the store targets index 0 of a zero-length
buffer. -/
theorem C4_counterexample :
    decLoop (alookup base32Crockford.lookup) (fun ch i => JsError.charSyntaxError ch i)
        ['Z'] 0 8 0 = .ok ([], 3, 248) ∧
    decLoop (nlookup base32Crockford.baseMapLookup) (fun bv i => JsError.byteSyntaxError bv i)
        [90] 0 8 0 = .ok ([], 3, 248) ∧
    (3 : Int) ≠ 8 ∧ (248 : Nat) ≠ 0 ∧
    decodeFromString base32Crockford ['Z'] none none = .ok [] ∧
    decode base32Crockford [90] none none = .ok [] ∧
    ([] : List Nat).getLast? ≠ some 248 :=
  ⟨rfl, rfl, by decide, by decide, rfl, rfl, by decide⟩

/-- C4 (amended): in both byte-decode forms — `decodeFromString` (source
lines 307-310) and the byte-buffer `decode` (source lines 402-405) — when
the loop finishes with `shift ≠ 8` and `carry ≠ 0`, the final store of
`carry` targets index `⌊5n/8⌋`, which equals the allocated buffer length, so
the `Uint8Array` drops it: decoding returns exactly the bytes stored during
the loop, never the trailing `carry`. -/
theorem C4_trailing_carry_dropped (c : Base32Crockford) (str : List Char) (input : List Nat)
    (s1 e1 s2 e2 : Option Int) :
    (∀ out fs carry,
      decLoop (alookup c.lookup) (fun ch i => JsError.charSyntaxError ch i)
          ((str.drop (sliceIndexJs str.length s1 0)).take
            (sliceIndexJs str.length e1 str.length - sliceIndexJs str.length s1 0))
          (sliceIndexJs str.length s1 0) 8 0 = .ok (out, fs, carry) →
      fs ≠ 8 → carry ≠ 0 →
      decodeFromString c str s1 e1 = .ok (out.map (fun v => v % 256)) ∧
      out.length
        = (sliceIndexJs str.length e1 str.length - sliceIndexJs str.length s1 0) * 5 / 8) ∧
    (∀ out fs carry,
      decLoop (nlookup c.baseMapLookup) (fun bv i => JsError.byteSyntaxError bv i)
          ((input.drop (sliceIndexJs input.length s2 0)).take
            (sliceIndexJs input.length e2 input.length - sliceIndexJs input.length s2 0))
          (sliceIndexJs input.length s2 0) 8 0 = .ok (out, fs, carry) →
      fs ≠ 8 → carry ≠ 0 →
      decode c input s2 e2 = .ok (out.map (fun v => v % 256)) ∧
      out.length
        = (sliceIndexJs input.length e2 input.length - sliceIndexJs input.length s2 0) * 5 / 8) := by
  constructor
  · intro out fs carry h hfs hc
    have hlen := (decLoop_length_ok _ _ _ _ _ _ _ _ _ (by omega) (by omega) h).1
    rw [slice_length] at hlen
    have hlen2 : out.length
        = (sliceIndexJs str.length e1 str.length - sliceIndexJs str.length s1 0) * 5 / 8 := by
      omega
    refine ⟨?_, hlen2⟩
    simp only [decodeFromString, h]
    rw [if_pos (show fs ≠ 8 ∧ carry ≠ 0 from ⟨hfs, hc⟩),
      writeSeq_drop_overflow _ _ _ (by omega)]
  · intro out fs carry h hfs hc
    have hlen := (decLoop_length_ok _ _ _ _ _ _ _ _ _ (by omega) (by omega) h).1
    rw [slice_length] at hlen
    have hlen2 : out.length
        = (sliceIndexJs input.length e2 input.length - sliceIndexJs input.length s2 0) * 5 / 8 := by
      omega
    refine ⟨?_, hlen2⟩
    simp only [decode, h]
    rw [if_pos (show fs ≠ 8 ∧ carry ≠ 0 from ⟨hfs, hc⟩),
      writeSeq_drop_overflow _ _ _ (by omega)]

/-- Witness for C4's amended theorem: decoding `"Z"` as a string and the
byte 90 (`'Z'`'s char code) as a buffer — both loops end at `shift = 3`,
`carry = 248` — returns the empty sequence in both forms. -/
theorem C4_witness :
    (decodeFromString base32Crockford ['Z'] none none
        = .ok (([] : List Nat).map (fun v => v % 256)) ∧
      ([] : List Nat).length
        = (sliceIndexJs (['Z'] : List Char).length none (['Z'] : List Char).length
            - sliceIndexJs (['Z'] : List Char).length none 0) * 5 / 8) ∧
    (decode base32Crockford [90] none none
        = .ok (([] : List Nat).map (fun v => v % 256)) ∧
      ([] : List Nat).length
        = (sliceIndexJs ([90] : List Nat).length none ([90] : List Nat).length
            - sliceIndexJs ([90] : List Nat).length none 0) * 5 / 8) :=
  ⟨(C4_trailing_carry_dropped base32Crockford ['Z'] [90] none none none none).1 [] 3 248 rfl
      (by decide) (by decide),
    (C4_trailing_carry_dropped base32Crockford ['Z'] [90] none none none none).2 [] 3 248 rfl
      (by decide) (by decide)⟩

/-- C5: with the default alphabet, decoding is case-insensitive and accepts
the confusable aliases: `o`, `O`, `0` all decode to 0; `i`, `I`, `l`, `L`
decode to the same value as `1`; and every alphabet letter's lowercase form
decodes to the letter's 5-bit value. -/
theorem C5_alias_acceptance :
    decodeInt base32Crockford ['o'] = .ok 0 ∧ decodeInt base32Crockford ['O'] = .ok 0 ∧
    decodeInt base32Crockford ['0'] = .ok 0 ∧ decodeInt base32Crockford ['i'] = .ok 1 ∧
    decodeInt base32Crockford ['I'] = .ok 1 ∧ decodeInt base32Crockford ['l'] = .ok 1 ∧
    decodeInt base32Crockford ['L'] = .ok 1 ∧ decodeInt base32Crockford ['1'] = .ok 1 ∧
    ∀ v, v < 32 → 64 < (base32Crockford.alphabet.getD v ' ').toNat →
      decodeInt base32Crockford
          [Char.ofNat ((base32Crockford.alphabet.getD v ' ').toNat + 32)] = .ok (v : Int) := by
  exact ⟨rfl, rfl, rfl, rfl, rfl, rfl, rfl, rfl, by decide⟩

/-- Witness for C5's lowercase clause at the letter `A` (value 10). -/
theorem C5_witness : decodeInt base32Crockford ['a'] = .ok 10 :=
  C5_alias_acceptance.2.2.2.2.2.2.2.2 10 (by decide) (by decide)

/-- C6 counterexample: the alphabet `1023456789ABCDEFGHJKMNPQRSTVWXYZ` is a
custom (non-default) alphabet accepted by the constructor, yet its lookup
receives the `O`/`o` aliases for the index holding `'0'` and the
`I`/`i`/`L`/`l` aliases for the index holding `'1'` — the automatic aliasing
is not limited to case-folding of letters. -/
theorem C6_counterexample :
    toAlphabet (some "1023456789ABCDEFGHJKMNPQRSTVWXYZ".toList)
        = .ok "1023456789ABCDEFGHJKMNPQRSTVWXYZ".toList ∧
    "1023456789ABCDEFGHJKMNPQRSTVWXYZ".toList ≠ ALPHABET ∧
    alookup (createAlphabetLookups "1023456789ABCDEFGHJKMNPQRSTVWXYZ".toList).lookup 'O'
        = some 1 ∧
    alookup (createAlphabetLookups "1023456789ABCDEFGHJKMNPQRSTVWXYZ".toList).lookup 'o'
        = some 1 ∧
    alookup (createAlphabetLookups "1023456789ABCDEFGHJKMNPQRSTVWXYZ".toList).lookup 'I'
        = some 0 ∧
    alookup (createAlphabetLookups "1023456789ABCDEFGHJKMNPQRSTVWXYZ".toList).lookup 'L'
        = some 0 :=
  ⟨rfl, by decide, rfl, rfl, rfl, rfl⟩

/-- C6 (amended): the alias rules are applied uniformly to every alphabet,
custom ones included — whichever index holds `'0'` also receives the
`'O'`/`'o'` entries, whichever holds `'1'` receives `'I'`/`'i'`/`'L'`/`'l'`,
and any other symbol with char code above 64 receives its code+32
counterpart (each entry may later be shadowed by a subsequent symbol's own
entry, as C1's counterexample alphabet shows). -/
theorem C6_alias_rules_uniform (a : List Char) (i : Nat) (hi : i < 32) :
    (a.getD i ' ' = '0' →
      ('O', i) ∈ (createAlphabetLookups a).lookup ∧
      ('o', i) ∈ (createAlphabetLookups a).lookup) ∧
    (a.getD i ' ' = '1' →
      ('I', i) ∈ (createAlphabetLookups a).lookup ∧
      ('i', i) ∈ (createAlphabetLookups a).lookup ∧
      ('L', i) ∈ (createAlphabetLookups a).lookup ∧
      ('l', i) ∈ (createAlphabetLookups a).lookup) ∧
    (64 < (a.getD i ' ').toNat →
      (Char.ofNat ((a.getD i ' ').toNat + 32), i) ∈ (createAlphabetLookups a).lookup) := by
  have hmem : i ∈ List.range 32 := List.mem_range.mpr hi
  simp only [createAlphabetLookups]
  refine ⟨fun h => ⟨?_, ?_⟩, fun h => ⟨?_, ?_, ?_, ?_⟩, fun h => ?_⟩
  · exact foldl_range_adds a ('O', i) i
      (fun L => (createAlphabetLookupsStep_adds_zero_aliases a L i h).1) _ _ hmem
  · exact foldl_range_adds a ('o', i) i
      (fun L => (createAlphabetLookupsStep_adds_zero_aliases a L i h).2) _ _ hmem
  · exact foldl_range_adds a ('I', i) i
      (fun L => (createAlphabetLookupsStep_adds_one_aliases a L i h).1) _ _ hmem
  · exact foldl_range_adds a ('i', i) i
      (fun L => (createAlphabetLookupsStep_adds_one_aliases a L i h).2.1) _ _ hmem
  · exact foldl_range_adds a ('L', i) i
      (fun L => (createAlphabetLookupsStep_adds_one_aliases a L i h).2.2.1) _ _ hmem
  · exact foldl_range_adds a ('l', i) i
      (fun L => (createAlphabetLookupsStep_adds_one_aliases a L i h).2.2.2) _ _ hmem
  · have h0 : a.getD i ' ' ≠ '0' := fun he => absurd h (by rw [he]; decide)
    have h1 : a.getD i ' ' ≠ '1' := fun he => absurd h (by rw [he]; decide)
    exact foldl_range_adds a _ i
      (fun L => createAlphabetLookupsStep_adds_lower_alias a L i h0 h1 h) _ _ hmem

/-- Witness for C6's amended theorem on the swapped custom alphabet. -/
theorem C6_witness :
    ('O', 1) ∈ (createAlphabetLookups "1023456789ABCDEFGHJKMNPQRSTVWXYZ".toList).lookup ∧
    ('o', 1) ∈ (createAlphabetLookups "1023456789ABCDEFGHJKMNPQRSTVWXYZ".toList).lookup :=
  (C6_alias_rules_uniform "1023456789ABCDEFGHJKMNPQRSTVWXYZ".toList 1 (by decide)).1 (by decide)

/-- C7: `encodeInt` returns a `RangeError` exactly when the argument's
magnitude exceeds `2^53 - 1` and succeeds on every value within that range;
`decodeInt` succeeds on every string of accepted symbols, however long, and
never returns a `RangeError` for any input whatsoever. -/
theorem C7_encode_range_decode_unbounded (n : Int) (s : List Char)
    (hs : ∀ ch ∈ s, alookup base32Crockford.lookup ch ≠ none) :
    ((∃ out, encodeInt base32Crockford n = .ok out) ↔
      -MAX_SAFE_INTEGER ≤ n ∧ n ≤ MAX_SAFE_INTEGER) ∧
    (∃ v, decodeInt base32Crockford s = .ok v) ∧
    (∀ t : List Char, decodeInt base32Crockford t ≠ .error JsError.rangeError) := by
  refine ⟨⟨?_, ?_⟩, ?_, ?_⟩
  · rintro ⟨out, hout⟩
    rw [encodeInt] at hout
    by_cases hlo : n < -MAX_SAFE_INTEGER
    · rw [if_pos hlo] at hout; cases hout
    · rw [if_neg hlo] at hout
      by_cases hhi : MAX_SAFE_INTEGER < n
      · rw [if_pos hhi] at hout; cases hout
      · exact ⟨by omega, by omega⟩
  · rintro ⟨hlo, hhi⟩
    rw [encodeInt, if_neg (by omega : ¬ n < -MAX_SAFE_INTEGER),
      if_neg (by omega : ¬ MAX_SAFE_INTEGER < n)]
    by_cases h0 : n = 0
    · rw [if_pos h0]; exact ⟨_, rfl⟩
    · rw [if_neg h0]; exact ⟨_, rfl⟩
  · obtain ⟨v, hv⟩ := decodeIntLoop_ok_of_valid base32Crockford.lookup
      (s.drop (if (s.headD ' ' == '-') && decide (1 < s.length) then 1 else 0))
      (if (s.headD ' ' == '-') && decide (1 < s.length) then 1 else 0) 0
      (fun ch hch => hs ch (List.mem_of_mem_drop hch))
    refine ⟨if (s.headD ' ' == '-') && decide (0 < v) then -(v : Int) else (v : Int), ?_⟩
    simp only [decodeInt, hv]
  · intro t habs
    simp only [decodeInt] at habs
    split at habs
    · rename_i e heq
      obtain ⟨ch, j, hcj⟩ := decodeIntLoop_error_shape base32Crockford.lookup _ _ _ e heq
      rw [hcj] at habs
      cases habs
    · cases habs

/-- Witness for C7: in-range encode succeeds and a valid-symbol decode
succeeds. -/
theorem C7_witness :
    (∃ out, encodeInt base32Crockford 32 = .ok out) ∧
    (∃ v, decodeInt base32Crockford ['Z', 'z'] = .ok v) :=
  ⟨(C7_encode_range_decode_unbounded 32 ['Z', 'z'] (by decide)).1.mpr ⟨by decide, by decide⟩,
    (C7_encode_range_decode_unbounded 32 ['Z', 'z'] (by decide)).2.1⟩

/-- C8 counterexample: the constructor accepts the 32-character alphabet
`0123456789OBCDEFGHJKMNPQRSTVWXYZ` even though `'0'` and `'O'` normalize to
the same value 0 in the default lookup, and it also accepts
`a123456789ABCDEFGHJKMNPQRSTVWXYZ` even though `'a'` is not the canonical
rendering of its value — only literal repetitions are rejected. -/
theorem C8_counterexample :
    toAlphabet (some "0123456789OBCDEFGHJKMNPQRSTVWXYZ".toList)
        = .ok "0123456789OBCDEFGHJKMNPQRSTVWXYZ".toList ∧
    alookup defaultAlphabetLookup '0' = some 0 ∧
    alookup defaultAlphabetLookup 'O' = some 0 ∧
    toAlphabet (some "a123456789ABCDEFGHJKMNPQRSTVWXYZ".toList)
        = .ok "a123456789ABCDEFGHJKMNPQRSTVWXYZ".toList :=
  ⟨rfl, rfl, rfl, rfl⟩

/-- C8 (amended): construction with a supplied alphabet succeeds exactly
when the string has length 32, every character is present in the default
alphabet's lookup (canonical symbols plus aliases), and no character occurs
twice *literally*; characters that merely normalize to the same value, or
non-canonical (alias) renderings, are accepted. -/
theorem C8_validation_characterisation (v : List Char) :
    (∃ c, mkBase32Crockford (some v) = .ok c) ↔
      v.length = 32 ∧ (∀ ch ∈ v, alookup defaultAlphabetLookup ch ≠ none) ∧ v.Nodup := by
  rw [← toAlphabet_ok_iff]
  simp only [mkBase32Crockford]
  constructor
  · rintro ⟨c, hc⟩
    rcases ht : toAlphabet (some v) with e | a
    · rw [ht] at hc
      simp [Except.map] at hc
    · exact ⟨a, rfl⟩
  · rintro ⟨a, ha⟩
    rw [ha]
    exact ⟨_, rfl⟩

/-- Witness for C8's characterisation on the `0`/`O` alphabet. -/
theorem C8_witness :
    ∃ c, mkBase32Crockford (some "0123456789OBCDEFGHJKMNPQRSTVWXYZ".toList) = .ok c :=
  (C8_validation_characterisation "0123456789OBCDEFGHJKMNPQRSTVWXYZ".toList).mpr
    ⟨by decide, by decide, by decide⟩

/-- C9: when the effective range of a decode input contains a symbol (resp.
byte) absent from the active lookup, decoding returns the syntax error
carrying the first such offending symbol and its absolute index — and hence
no byte sequence at all. -/
theorem C9_invalid_symbol_rejected (c : Base32Crockford) (str : List Char) (input : List Nat)
    (s1 e1 s2 e2 : Option Int)
    (h1 : ∃ ch ∈ (str.drop (sliceIndexJs str.length s1 0)).take
        (sliceIndexJs str.length e1 str.length - sliceIndexJs str.length s1 0),
      alookup c.lookup ch = none)
    (h2 : ∃ bv ∈ (input.drop (sliceIndexJs input.length s2 0)).take
        (sliceIndexJs input.length e2 input.length - sliceIndexJs input.length s2 0),
      nlookup c.baseMapLookup bv = none) :
    (∃ k, k < (sliceIndexJs str.length e1 str.length - sliceIndexJs str.length s1 0) ∧
      alookup c.lookup (((str.drop (sliceIndexJs str.length s1 0)).take
          (sliceIndexJs str.length e1 str.length - sliceIndexJs str.length s1 0)).getD k ' ')
        = none ∧
      decodeFromString c str s1 e1
        = .error (.charSyntaxError
            (((str.drop (sliceIndexJs str.length s1 0)).take
                (sliceIndexJs str.length e1 str.length - sliceIndexJs str.length s1 0)).getD k ' ')
            (sliceIndexJs str.length s1 0 + k))) ∧
    (∃ k, k < (sliceIndexJs input.length e2 input.length - sliceIndexJs input.length s2 0) ∧
      nlookup c.baseMapLookup (((input.drop (sliceIndexJs input.length s2 0)).take
          (sliceIndexJs input.length e2 input.length - sliceIndexJs input.length s2 0)).getD k 0)
        = none ∧
      decode c input s2 e2
        = .error (.byteSyntaxError
            (((input.drop (sliceIndexJs input.length s2 0)).take
                (sliceIndexJs input.length e2 input.length - sliceIndexJs input.length s2 0)).getD k 0)
            (sliceIndexJs input.length s2 0 + k))) := by
  constructor
  · obtain ⟨k, hk, hkn, -, heq⟩ := decLoop_first_invalid (alookup c.lookup)
      (fun ch i => JsError.charSyntaxError ch i) ' '
      ((str.drop (sliceIndexJs str.length s1 0)).take
        (sliceIndexJs str.length e1 str.length - sliceIndexJs str.length s1 0))
      (sliceIndexJs str.length s1 0) 8 0 h1
    rw [slice_length] at hk
    exact ⟨k, hk, hkn, by simp only [decodeFromString, heq]⟩
  · obtain ⟨k, hk, hkn, -, heq⟩ := decLoop_first_invalid (nlookup c.baseMapLookup)
      (fun bv i => JsError.byteSyntaxError bv i) 0
      ((input.drop (sliceIndexJs input.length s2 0)).take
        (sliceIndexJs input.length e2 input.length - sliceIndexJs input.length s2 0))
      (sliceIndexJs input.length s2 0) 8 0 h2
    rw [slice_length] at hk
    exact ⟨k, hk, hkn, by simp only [decode, heq]⟩

/-- Witness for C9 at the invalid character `'U'` and invalid byte 0x40. -/
theorem C9_witness :
    (∃ k, k < (sliceIndexJs (['0', 'U'] : List Char).length none (['0', 'U'] : List Char).length
        - sliceIndexJs (['0', 'U'] : List Char).length none 0) ∧
      alookup base32Crockford.lookup ((((['0', 'U'] : List Char).drop
          (sliceIndexJs (['0', 'U'] : List Char).length none 0)).take
          (sliceIndexJs (['0', 'U'] : List Char).length none (['0', 'U'] : List Char).length
            - sliceIndexJs (['0', 'U'] : List Char).length none 0)).getD k ' ') = none ∧
      decodeFromString base32Crockford ['0', 'U'] none none
        = .error (.charSyntaxError ((((['0', 'U'] : List Char).drop
            (sliceIndexJs (['0', 'U'] : List Char).length none 0)).take
            (sliceIndexJs (['0', 'U'] : List Char).length none (['0', 'U'] : List Char).length
              - sliceIndexJs (['0', 'U'] : List Char).length none 0)).getD k ' ')
            (sliceIndexJs (['0', 'U'] : List Char).length none 0 + k))) ∧
    (∃ k, k < (sliceIndexJs ([0x40] : List Nat).length none ([0x40] : List Nat).length
        - sliceIndexJs ([0x40] : List Nat).length none 0) ∧
      nlookup base32Crockford.baseMapLookup (((([0x40] : List Nat).drop
          (sliceIndexJs ([0x40] : List Nat).length none 0)).take
          (sliceIndexJs ([0x40] : List Nat).length none ([0x40] : List Nat).length
            - sliceIndexJs ([0x40] : List Nat).length none 0)).getD k 0) = none ∧
      decode base32Crockford [0x40] none none
        = .error (.byteSyntaxError (((([0x40] : List Nat).drop
            (sliceIndexJs ([0x40] : List Nat).length none 0)).take
            (sliceIndexJs ([0x40] : List Nat).length none ([0x40] : List Nat).length
              - sliceIndexJs ([0x40] : List Nat).length none 0)).getD k 0)
            (sliceIndexJs ([0x40] : List Nat).length none 0 + k))) :=
  C9_invalid_symbol_rejected base32Crockford ['0', 'U'] [0x40] none none none none
    (by decide) (by decide)

/-- C10: every 32-character candidate containing a character outside the
default lookup (the canonical symbols plus their aliases) is rejected by the
constructor, even when all 32 characters are distinct. -/
theorem C10_constructor_rejects_foreign_chars (v : List Char) (hlen : v.length = 32)
    (ch : Char) (hch : ch ∈ v) (hx : alookup defaultAlphabetLookup ch = none)
    (c : Base32Crockford) :
    mkBase32Crockford (some v) ≠ .ok c := by
  intro hc
  have hex : ∃ a, toAlphabet (some v) = .ok a := by
    rcases ht : toAlphabet (some v) with e | a
    · rw [mkBase32Crockford, ht] at hc
      simp [Except.map] at hc
    · exact ⟨a, rfl⟩
  have := ((toAlphabet_ok_iff v).mp hex).2.1 ch hch
  exact this hx

/-- Witness for C10 at the alphabet with `'U'` in place of `'0'`. -/
theorem C10_witness :
    mkBase32Crockford (some "U123456789ABCDEFGHJKMNPQRSTVWXYZ".toList)
      ≠ .ok base32Crockford :=
  C10_constructor_rejects_foreign_chars "U123456789ABCDEFGHJKMNPQRSTVWXYZ".toList
    (by decide) 'U' (by decide) (by decide) base32Crockford
